import Mathlib

/-!
# Verification of the grammar rule engine of `bot.py`

This file embeds the core of the repository (the rule table `GRAMMAR_RULES`
and the method `GrammarChecker.check_grammar`) into Lean and proves the
specified properties about it.

The source applies, in table order, five fixed regular-expression rules to
the input text with `re.search`/`re.sub` under `re.IGNORECASE`.  Every
pattern in the table has the shape `\b w₁ ... wₖ \b`: a word-boundary, a
sequence of literal runs and capture groups whose alternatives are literal
words, and a final word-boundary.  The embedding mirrors that shape:

* a pattern is a `List Piece`, where a `Piece` is a literal character run,
  a capture group given by its list of alternatives (tried left to right,
  with backtracking, as the `re` engine does), or a word-boundary test;
* matching is case-insensitive via ASCII case folding on `Char.toNat`
  (the patterns and replacements contain only ASCII, and `re.IGNORECASE`
  acts as ASCII case folding on them);
* `\w` (hence `\b`) is the ASCII word-character class `[A-Za-z0-9_]`;
  all pattern characters are ASCII word characters or spaces;
* the leading `\b` of each pattern is represented by the scanner only
  attempting a match at positions not preceded by a word character
  (every pattern starts with a word character, so the boundary holds
  exactly there); the trailing `\b` is the explicit `Piece.bnd` token;
* `re.sub` replaces all non-overlapping matches left to right, resuming
  after each match; since every pattern ends with a word character the
  scanner resumes in the "previous character is a word character" state;
* replacement templates are lists of literal runs and group references
  (`Tpl.ref i` is the regex `\(i+1)`), with captured text reinserted
  verbatim, as `re.sub` does.
-/

namespace GrammarBot

/-- ASCII case folding on character codes: maps `A`-`Z` (65-90) to
`a`-`z` (97-122) and leaves everything else unchanged.  This is how
`re.IGNORECASE` compares the ASCII-only patterns of the rule table. -/
def lowN (n : Nat) : Nat := if 65 ≤ n ∧ n ≤ 90 then n + 32 else n

/-- Case-insensitive character comparison (ASCII folding). -/
def eqCI (a b : Char) : Bool := lowN a.toNat = lowN b.toNat

/-- The ASCII word-character class `[A-Za-z0-9_]` of the regex `\w`,
which is what `\b` tests against for this rule table's text. -/
def isWordChar (c : Char) : Bool :=
  (48 ≤ c.toNat ∧ c.toNat ≤ 57) ∨ (65 ≤ c.toNat ∧ c.toNat ≤ 90) ∨
    (97 ≤ c.toNat ∧ c.toNat ≤ 122) ∨ c.toNat = 95

/-- One token of a pattern: a literal character run, a capture group
(alternatives tried left to right), or a word-boundary test (the
trailing `\b`; the leading `\b` is enforced by the scanner). -/
inductive Piece where
  | lit (w : List Char)
  | grp (alts : List (List Char))
  | bnd
  deriving DecidableEq, Repr

/-- One token of a replacement template: a literal run or a reference to
capture group `i` (0-based; `Tpl.ref 0` is the regex `\1`). -/
inductive Tpl where
  | lit (w : List Char)
  | ref (i : Nat)
  deriving DecidableEq, Repr

/-- Case-insensitively consume the literal `w` from the front of `s`,
returning the remainder on success. -/
def matchCI : List Char → List Char → Option (List Char)
  | [], s => some s
  | _ :: _, [] => none
  | w :: ws, c :: cs => if eqCI w c then matchCI ws cs else none

/-- The word-boundary test after a match position: the pattern characters
before it are word characters, so `\b` holds iff the next text character
is absent or not a word character. -/
def boundaryOk : List Char → Bool
  | [] => true
  | c :: _ => !isWordChar c

/-- Match a pattern (list of pieces) against the front of `s`, with the
`re` engine's left-to-right alternative order and backtracking.  Returns
the unconsumed remainder and the list of captured texts (in group order,
taken verbatim from `s`). -/
def matchPieces : List Piece → List Char → Option (List Char × List (List Char))
  | [], s => some (s, [])
  | .lit w :: ps, s =>
      match matchCI w s with
      | none => none
      | some s' => matchPieces ps s'
  | .bnd :: ps, s => if boundaryOk s then matchPieces ps s else none
  | .grp alts :: ps, s =>
      alts.findSome? fun a =>
        match matchCI a s with
        | none => none
        | some s' =>
          match matchPieces ps s' with
          | none => none
          | some (r, caps) => some (r, s.take a.length :: caps)

/-- `re.search(pattern, text, re.IGNORECASE)` as a Boolean: scan left to
right; attempt a match only at positions not preceded by a word character
(the leading `\b`; every pattern starts with a word character).  `prev`
records whether the previous character is a word character. -/
def searchFrom (ps : List Piece) (prev : Bool) : List Char → Bool
  | [] => false
  | c :: cs =>
      (!prev && (matchPieces ps (c :: cs)).isSome) || searchFrom ps (isWordChar c) cs

/-- Resolve a replacement template against the captured groups
(`re.sub`'s group substitution; a reference out of range never occurs for
the table's rules). -/
def applyTpl (tpl : List Tpl) (caps : List (List Char)) : List Char :=
  tpl.foldr (fun t acc =>
    (match t with | .lit w => w | .ref i => caps.getD i []) ++ acc) []

/-- `re.sub(pattern, repl, text, flags=re.IGNORECASE)` on character
lists: replace all non-overlapping matches left to right, resuming right
after each match (every pattern ends with a word character, so the
resumed scanner is in the `prev = true` state).  Structured over a fuel
argument so that it is structurally recursive; the scan advances through
the string, so a fuel of `s.length` (supplied by `subFrom`) is always
enough, as the fuel-irrelevance lemma below proves. -/
def subFromF (ps : List Piece) (tpl : List Tpl) :
    Nat → Bool → List Char → List Char
  | _, _, [] => []
  | 0, _, s => s
  | fuel + 1, prev, c :: cs =>
    if prev then c :: subFromF ps tpl fuel (isWordChar c) cs
    else
      match matchPieces ps (c :: cs) with
      | none => c :: subFromF ps tpl fuel (isWordChar c) cs
      | some (rest, caps) =>
        if rest.length < cs.length + 1 then
          applyTpl tpl caps ++ subFromF ps tpl fuel true rest
        else c :: subFromF ps tpl fuel (isWordChar c) cs

/-- `re.sub` on character lists (see `subFromF`). -/
def subFrom (ps : List Piece) (tpl : List Tpl) (prev : Bool) (s : List Char) :
    List Char :=
  subFromF ps tpl s.length prev s

/-- One entry of `GRAMMAR_RULES`: category, pattern, replacement
(`correction`), explanation and examples. -/
structure Rule where
  category : String
  pattern : List Piece
  correction : List Tpl
  explanation : String
  examples : List String
  deriving DecidableEq, Repr

/-- `re.search(rule['pattern'], text, re.IGNORECASE)` as a Boolean. -/
def searchRule (r : Rule) (text : String) : Bool :=
  searchFrom r.pattern false text.data

/-- `re.sub(rule['pattern'], rule['correction'], text, flags=re.IGNORECASE)`. -/
def subRule (r : Rule) (text : String) : String :=
  ⟨subFrom r.pattern r.correction false text.data⟩

/-- Rule 1 of `GRAMMAR_RULES`: `\bI (goes|eats|plays|reads|writes)\b`,
replaced by the literal `'I go'`. -/
def rule1 : Rule where
  category := "Subject-Verb Agreement"
  pattern := [.lit "I ".data,
    .grp ["goes".data, "eats".data, "plays".data, "reads".data, "writes".data],
    .bnd]
  correction := [.lit "I go".data]
  explanation := "🚫 \"I\" always takes base form verb! ✅ Use \"I go\" 🌟"
  examples := ["❌ I goes to school", "✅ I go to school"]

/-- Rule 2: `\b(He|She|It) (go|eat|play|read|write)\b`, replaced by `\1 \2s`. -/
def rule2 : Rule where
  category := "Subject-Verb Agreement"
  pattern := [.grp ["He".data, "She".data, "It".data], .lit " ".data,
    .grp ["go".data, "eat".data, "play".data, "read".data, "write".data],
    .bnd]
  correction := [.ref 0, .lit " ".data, .ref 1, .lit "s".data]
  explanation := "🐰 He/She/It requires verb + \"s\"! 🎯"
  examples := ["❌ He play football", "✅ He plays football"]

/-- Rule 3: `\b(I am|You are|He is|She is|It is|We are|They are) (go|eat|play)\b`,
replaced by `\1 \2ing`. -/
def rule3 : Rule where
  category := "Tense Consistency"
  pattern := [.grp ["I am".data, "You are".data, "He is".data, "She is".data,
      "It is".data, "We are".data, "They are".data], .lit " ".data,
    .grp ["go".data, "eat".data, "play".data],
    .bnd]
  correction := [.ref 0, .lit " ".data, .ref 1, .lit "ing".data]
  explanation := "📥 Present continuous requires verb + \"ing\"! 🌈"
  examples := ["❌ I am go to school", "✅ I am going to school"]

/-- Rule 4: `\b(I|You|We|They) (was)\b`, replaced by `\1 were`. -/
def rule4 : Rule where
  category := "Verb Forms"
  pattern := [.grp ["I".data, "You".data, "We".data, "They".data], .lit " ".data,
    .grp ["was".data],
    .bnd]
  correction := [.ref 0, .lit " were".data]
  explanation := "🦊 I/You/We/They use \"were\" in past tense! 🎀"
  examples := ["❌ They was happy", "✅ They were happy"]

/-- Rule 5: `\bdo (he|she|it)\b`, replaced by `does \1`. -/
def rule5 : Rule where
  category := "Auxiliary Verbs"
  pattern := [.lit "do ".data, .grp ["he".data, "she".data, "it".data], .bnd]
  correction := [.lit "does ".data, .ref 0]
  explanation := "🤪 He/She/It uses \"does\" as auxiliary! 🥳"
  examples := ["❌ Do she like music?", "✅ Does she like music?"]

/-- The ordered rule table `GRAMMAR_RULES`. -/
def GRAMMAR_RULES : List Rule := [rule1, rule2, rule3, rule4, rule5]

/-- One correction record appended to the result list (the dict built from
the triggering rule's category/explanation/examples). -/
structure Correction where
  category : String
  explanation : String
  examples : List String
  deriving DecidableEq, Repr

/-- The correction record built from a rule. -/
def corrOf (r : Rule) : Correction :=
  ⟨r.category, r.explanation, r.examples⟩

/-- The body of the `try` block for one rule: test the pattern and, on a
match, compute the substitution.  The source wraps this step in
`try/except`; in the embedding the step is total, so it always returns
`Except.ok`, but the pipeline is stated over an arbitrary fallible body so
that the `except` path is part of the model. -/
def ruleBody (r : Rule) (text : String) : Except String (Option String) :=
  .ok (if searchRule r text then some (subRule r text) else none)

/-- One iteration of the loop in `check_grammar`: run the rule body; on an
exception, skip the rule (`except ... continue`); on a match whose
substitution actually changed the text, update the text and append a
correction record; otherwise leave the state unchanged. -/
def checkStep (body : Rule → String → Except String (Option String))
    (acc : String × List Correction) (r : Rule) : String × List Correction :=
  match body r acc.1 with
  | .error _ => acc
  | .ok none => acc
  | .ok (some corrected) =>
      if corrected ≠ acc.1 then (corrected, acc.2 ++ [corrOf r]) else acc

/-- The loop of `check_grammar` over a rule list with a given per-rule body. -/
def checkGrammarWith (body : Rule → String → Except String (Option String))
    (rules : List Rule) (text : String) : String × List Correction :=
  rules.foldl (checkStep body) (text, [])

/-- `GrammarChecker.check_grammar`: apply the rules of `GRAMMAR_RULES` in
table order to the progressively corrected text, returning the corrected
text and the list of correction records. -/
def check_grammar (text : String) : String × List Correction :=
  checkGrammarWith ruleBody GRAMMAR_RULES text

/-- The effect of one rule on the text alone (the corrected text of the
loop body, ignoring the correction list): substitute if the pattern is
found, otherwise leave the text unchanged. -/
def applyRuleText (r : Rule) (cur : String) : String :=
  if searchRule r cur then subRule r cur else cur

/-- A rule whose substitution is the identity on its own matches
(pattern `\bok\b`, replacement `ok`), exercising the "matched but
text unchanged" path of the loop. -/
def ruleNoOp : Rule where
  category := "No-op"
  pattern := [.lit "ok".data, .bnd]
  correction := [.lit "ok".data]
  explanation := "identity replacement"
  examples := []

/-- A rule body that always throws, exercising the `except` path of the
loop. -/
def failingBody : Rule → String → Except String (Option String) :=
  fun _ _ => .error "boom"

/-- The `GrammarChecker` class: its only state is the rule table set in
`__init__`. -/
structure GrammarChecker where
  rules : List Rule
  deriving DecidableEq

/-- `GrammarChecker.__init__`: store the module-level `GRAMMAR_RULES`. -/
def GrammarChecker.init : GrammarChecker := ⟨GRAMMAR_RULES⟩

/-- A call of the method `check_grammar` on a checker instance, with the
instance state threaded explicitly: the method body only reads
`self.rules` and never assigns any attribute, so the call returns the
result together with the unchanged instance. -/
def GrammarChecker.checkCall (self : GrammarChecker) (text : String) :
    (String × List Correction) × GrammarChecker :=
  (checkGrammarWith ruleBody self.rules text, self)

/-- Does the first piece of a pattern require a word character?  (All
five rule patterns start with a literal word character or a group whose
alternatives all do.) -/
def patStartsWord : List Piece → Bool
  | .lit (w :: _) :: _ => isWordChar w
  | .grp alts :: _ =>
      alts.all fun a => match a with | w :: _ => isWordChar w | [] => false
  | _ => false

/-- The check of one single rule in isolation (the pipeline run with a
one-rule table). -/
def checkRule (r : Rule) (text : String) : String × List Correction :=
  checkGrammarWith ruleBody [r] text

/-- `ciRel a b`: the characters `a` and `b` are equal up to ASCII case
folding. -/
def ciRel (a b : Char) : Prop := eqCI a b = true

/-- `ciList u v`: the strings `u` and `v` are equal up to ASCII case
folding (pointwise `ciRel`). -/
def ciList (u v : List Char) : Prop := List.Forall₂ ciRel u v

/-- Does the first piece of the pattern always consume at least one
character on a successful match? -/
def headConsumes : List Piece → Bool
  | .lit (_ :: _) :: _ => true
  | .grp alts :: _ => alts.all fun a => !a.isEmpty
  | _ => false

/-- Minimum length of a group alternative (lower bound on what the group
consumes). -/
def minAlts : List (List Char) → Nat
  | [] => 0
  | [a] => a.length
  | a :: b :: as => min a.length (minAlts (b :: as))

/-- Lower bound on the number of characters a pattern consumes on any
successful match. -/
def minConsume : List Piece → Nat
  | [] => 0
  | .lit w :: ps => w.length + minConsume ps
  | .bnd :: ps => minConsume ps
  | .grp alts :: ps => minAlts alts + minConsume ps

/-- Does the pattern end with the word-boundary token? -/
def endsBnd : List Piece → Bool
  | [] => false
  | [.bnd] => true
  | [.lit _] => false
  | [.grp _] => false
  | _ :: p :: ps => endsBnd (p :: ps)

/-- Size of a piece, used as a measure on residues of a pattern. -/
def pieceSize : Piece → Nat
  | .lit w => w.length + 1
  | .grp alts => 2 + (alts.map fun a => a.length + 1).sum
  | .bnd => 1

/-- Measure of a residue (a partially consumed pattern): every residue
transition strictly decreases it. -/
def sizeRes (ρ : List Piece) : Nat := (ρ.map pieceSize).sum

/-- The one-step residue transitions of the matcher: passing a boundary,
finishing a literal, consuming one character of a literal, or committing
to one alternative of a group. -/
def advanceRes : List Piece → List (List Piece)
  | [] => []
  | .bnd :: ps => [ps]
  | .lit [] :: ps => [ps]
  | .lit (_ :: ws) :: ps => [.lit ws :: ps]
  | .grp alts :: ps => alts.map fun a => .lit a :: ps

/-- Close a set of residues under `advanceRes` (fuelled iteration; the
measure `sizeRes` strictly decreases along transitions, so a fixed point
is reached). -/
def closeRes : Nat → List (List Piece) → List (List Piece)
  | 0, acc => acc
  | n + 1, acc =>
    let fresh := ((acc.map advanceRes).flatten.filter fun ρ => !acc.contains ρ).dedup
    if fresh.isEmpty then acc else closeRes n (acc ++ fresh)

/-- All residues reachable from a pattern. -/
def residues (P : List Piece) : List (List Piece) := closeRes 100 [P]

/-- All possible capture-group value combinations of a pattern, with each
captured text represented by the group alternative it case-insensitively
equals. -/
def capCombos : List Piece → List (List (List Char))
  | [] => [[]]
  | .lit _ :: ps => capCombos ps
  | .bnd :: ps => capCombos ps
  | .grp alts :: ps => (alts.map fun a => (capCombos ps).map fun lc => a :: lc).flatten

/-- Match a literal against a finite prefix, conservatively deciding
whether the whole attempt is certain to fail: `k` decides the remaining
pieces.  Returns `true` only if the attempt fails no matter what follows
the prefix, given that the first character beyond the prefix (if any) is
a non-word character. -/
def litFail (k : List Char → Bool) : List Char → List Char → Bool
  | [], s => k s
  | w :: _, [] => isWordChar w
  | w :: ws, c :: cs => if eqCI w c then litFail k ws cs else true

/-- Conservative failure test for a residue against a finite prefix:
`failsOnNW ρ pre = true` guarantees that the matcher running `ρ` on
`pre ++ z` fails for every continuation `z` whose first character (if
any) is a non-word character. -/
def failsOnNW : List Piece → List Char → Bool
  | [], _ => false
  | .bnd :: ps, s =>
      match s with
      | [] => false
      | c :: _ => if isWordChar c then true else failsOnNW ps s
  | .lit w :: ps, s => litFail (fun t => failsOnNW ps t) w s
  | .grp alts :: ps, s => alts.all fun a => litFail (fun t => failsOnNW ps t) a s

/-- Scan a replacement prefix, checking that at every position of it not
preceded by a word character the full pattern is certain not to match
(`failsOnNW`), and that the scan leaves the last character a word
character (`prev = true` at the end). -/
def inertScan (P : List Piece) : Bool → List Char → Bool
  | prev, [] => prev
  | prev, c :: cs => (prev || failsOnNW P (c :: cs)) && inertScan P (isWordChar c) cs

/-! ## Basic lemmas: case folding, word characters, matching -/

theorem matchCI_length {w s s' : List Char} (h : matchCI w s = some s') :
    s'.length + w.length = s.length := by
  induction w generalizing s with
  | nil => simp [matchCI] at h; simp [h]
  | cons w ws ih =>
    match s with
    | [] => simp [matchCI] at h
    | c :: cs =>
      simp only [matchCI] at h
      split at h
      · have := ih h; simp [List.length_cons]; omega
      · exact absurd h (by simp)

theorem matchPieces_rest_length {ps : List Piece} {s rest : List Char}
    {caps : List (List Char)} (h : matchPieces ps s = some (rest, caps)) :
    rest.length ≤ s.length := by
  induction ps generalizing s rest caps with
  | nil => simp [matchPieces] at h; simp [h.1]
  | cons p ps ih =>
    match p with
    | .lit w =>
      simp only [matchPieces] at h
      cases hm : matchCI w s with
      | none => rw [hm] at h; exact absurd h (by simp)
      | some s' =>
        rw [hm] at h
        have := ih h
        have := matchCI_length hm
        omega
    | .bnd =>
      simp only [matchPieces] at h
      split at h
      · exact ih h
      · exact absurd h (by simp)
    | .grp alts =>
      simp only [matchPieces] at h
      obtain ⟨a, _, ha⟩ := List.exists_of_findSome?_eq_some h
      cases hm : matchCI a s with
      | none => simp [hm] at ha
      | some s' =>
        simp only [hm] at ha
        cases hp : matchPieces ps s' with
        | none => simp [hp] at ha
        | some rc =>
          obtain ⟨r, caps'⟩ := rc
          simp only [hp, Option.some.injEq, Prod.mk.injEq] at ha
          obtain ⟨hr, -⟩ := ha
          subst hr
          have h1 := ih hp
          have h2 := matchCI_length hm
          omega

theorem subFromF_nil {ps : List Piece} {tpl : List Tpl} :
    ∀ (fuel : Nat) (prev : Bool), subFromF ps tpl fuel prev [] = [] := by
  intro fuel prev
  cases fuel <;> rfl

theorem subFromF_fuel {ps : List Piece} {tpl : List Tpl} :
    ∀ {f₁ f₂ : Nat} {prev : Bool} {s : List Char},
      s.length ≤ f₁ → s.length ≤ f₂ →
      subFromF ps tpl f₁ prev s = subFromF ps tpl f₂ prev s := by
  intro f₁
  induction f₁ with
  | zero =>
    intro f₂ prev s h1 _
    have hs : s = [] := List.length_eq_zero.mp (Nat.le_zero.mp h1)
    subst hs
    rw [subFromF_nil, subFromF_nil]
  | succ f ih =>
    intro f₂ prev s h1 h2
    match s, f₂ with
    | [], f₂ => rw [subFromF_nil, subFromF_nil]
    | c :: cs, 0 => simp at h2
    | c :: cs, f₂ + 1 =>
      simp only [List.length_cons] at h1 h2
      have hcs₁ : cs.length ≤ f := by omega
      have hcs₂ : cs.length ≤ f₂ := by omega
      cases prev with
      | true =>
        simp only [subFromF, if_true]
        rw [ih hcs₁ hcs₂]
      | false =>
        simp only [subFromF, Bool.false_eq_true, if_false]
        cases hm : matchPieces ps (c :: cs) with
        | none =>
          simp only [hm]
          rw [ih hcs₁ hcs₂]
        | some rc =>
          obtain ⟨rest, caps⟩ := rc
          simp only [hm]
          by_cases hlen : rest.length < cs.length + 1
          · simp only [if_pos hlen]
            rw [ih (by omega : rest.length ≤ f) (by omega : rest.length ≤ f₂)]
          · simp only [if_neg hlen]
            rw [ih hcs₁ hcs₂]

theorem subFrom_nil {ps : List Piece} {tpl : List Tpl} {prev : Bool} :
    subFrom ps tpl prev [] = [] := rfl

theorem subFrom_cons_true {ps : List Piece} {tpl : List Tpl} {c : Char}
    {cs : List Char} :
    subFrom ps tpl true (c :: cs) = c :: subFrom ps tpl (isWordChar c) cs := by
  simp [subFrom, subFromF]

theorem subFrom_cons_nomatch {ps : List Piece} {tpl : List Tpl} {c : Char}
    {cs : List Char} (hm : matchPieces ps (c :: cs) = none) :
    subFrom ps tpl false (c :: cs) = c :: subFrom ps tpl (isWordChar c) cs := by
  simp [subFrom, subFromF, hm]

theorem subFrom_cons_match {ps : List Piece} {tpl : List Tpl} {c : Char}
    {cs rest : List Char} {caps : List (List Char)}
    (hm : matchPieces ps (c :: cs) = some (rest, caps))
    (hlen : rest.length < cs.length + 1) :
    subFrom ps tpl false (c :: cs) =
      applyTpl tpl caps ++ subFrom ps tpl true rest := by
  simp only [subFrom, List.length_cons, subFromF, hm, hlen, if_true,
    Bool.false_eq_true, if_false]
  rw [subFromF_fuel (by omega) (Nat.le_refl _)]

theorem eqCI_false_of_word_nonword {a b : Char} (ha : isWordChar a = true)
    (hb : isWordChar b = false) : eqCI a b = false := by
  simp only [isWordChar, decide_eq_true_eq, decide_eq_false_iff_not] at ha hb
  simp only [eqCI, decide_eq_false_iff_not]
  unfold lowN
  split_ifs <;> omega

theorem isWordChar_eq_of_eqCI {a b : Char} (h : eqCI a b = true) :
    isWordChar a = isWordChar b := by
  simp only [eqCI, decide_eq_true_eq] at h
  simp only [isWordChar, decide_eq_decide]
  unfold lowN at h
  split_ifs at h <;> omega

theorem nonword_of_whitespace {c : Char} (h : c.isWhitespace = true) :
    isWordChar c = false := by
  simp only [Char.isWhitespace, Bool.or_eq_true, decide_eq_true_eq] at h
  rcases h with ((h | h) | h) | h <;> subst h <;> decide

/-- A pattern that starts with a word character cannot match at a
position holding a non-word character. -/
theorem matchPieces_nonword_head {ps : List Piece} {c : Char} {cs : List Char}
    (hps : patStartsWord ps = true) (hc : isWordChar c = false) :
    matchPieces ps (c :: cs) = none := by
  match ps with
  | [] => simp [patStartsWord] at hps
  | .bnd :: _ => simp [patStartsWord] at hps
  | .lit [] :: _ => simp [patStartsWord] at hps
  | .lit (w :: ws) :: ps' =>
    have hw : isWordChar w = true := hps
    simp [matchPieces, matchCI, eqCI_false_of_word_nonword hw hc]
  | .grp alts :: ps' =>
    have halts := hps
    simp only [patStartsWord, List.all_eq_true] at halts
    simp only [matchPieces, List.findSome?_eq_none_iff]
    intro a ha
    match a with
    | [] => exact absurd (halts [] ha) (by simp)
    | w :: ws =>
      have hw : isWordChar w = true := halts (w :: ws) ha
      simp [matchCI, eqCI_false_of_word_nonword hw hc]

/-- No match can be found anywhere in a string all of whose characters
are non-word characters. -/
theorem searchFrom_nonword {ps : List Piece} (hps : patStartsWord ps = true) :
    ∀ (l : List Char) (prev : Bool), (∀ c ∈ l, isWordChar c = false) →
      searchFrom ps prev l = false := by
  intro l
  induction l with
  | nil => intro prev _; rfl
  | cons c cs ih =>
    intro prev h
    have hc : isWordChar c = false := h c (List.mem_cons_self c cs)
    simp only [searchFrom, Bool.or_eq_false_iff]
    constructor
    · simp [matchPieces_nonword_head hps hc]
    · exact ih (isWordChar c) (fun d hd => h d (List.mem_cons_of_mem c hd))

/-- If no rule's pattern is found in `t`, the loop leaves text and
corrections unchanged. -/
theorem foldl_no_match {rules : List Rule} {t : String}
    (h : ∀ r ∈ rules, searchRule r t = false) :
    ∀ l : List Correction,
      List.foldl (checkStep ruleBody) (t, l) rules = (t, l) := by
  induction rules with
  | nil => intro l; rfl
  | cons r rs ih =>
    intro l
    have hr : searchRule r t = false := h r (List.mem_cons_self r rs)
    simp only [List.foldl_cons, checkStep, ruleBody, hr, if_false]
    exact ih (fun r' hr' => h r' (List.mem_cons_of_mem r hr')) l

/-- The corrected-text component of the loop equals the sequential fold
of the per-rule text transformations over the rule list, in order. -/
theorem foldl_text_component (rules : List Rule) :
    ∀ (t : String) (l : List Correction),
      (List.foldl (checkStep ruleBody) (t, l) rules).1 =
        List.foldl (fun cur r => applyRuleText r cur) t rules := by
  induction rules with
  | nil => intro t l; rfl
  | cons r rs ih =>
    intro t l
    simp only [List.foldl_cons]
    cases hs : searchRule r t with
    | false =>
      simp only [checkStep, ruleBody, hs, if_false]
      simpa [applyRuleText, hs] using ih t l
    | true =>
      simp only [checkStep, ruleBody, hs, if_true]
      by_cases hne : subRule r t = t
      · simp only [hne, ne_eq, not_true_eq_false, if_false, ite_self]
        simpa [applyRuleText, hs, hne] using ih t l
      · simp only [ne_eq, hne, not_false_eq_true, if_true]
        simpa [applyRuleText, hs] using ih (subRule r t) (l ++ [corrOf r])

/-- The correction list grows only by records of rules from the list, in
order: the result's corrections extend the accumulator by a sublist of
the rules' records, and the extension is non-empty whenever the text
changed. -/
theorem foldl_corrections_sublist (rules : List Rule) :
    ∀ (t : String) (l : List Correction),
      ∃ extra,
        (List.foldl (checkStep ruleBody) (t, l) rules).2 = l ++ extra ∧
        List.Sublist extra (rules.map corrOf) ∧
        ((List.foldl (checkStep ruleBody) (t, l) rules).1 ≠ t → extra ≠ []) := by
  induction rules with
  | nil =>
    intro t l
    exact ⟨[], by simp, List.nil_sublist _, by simp [List.foldl]⟩
  | cons r rs ih =>
    intro t l
    simp only [List.foldl_cons]
    cases hs : searchRule r t with
    | false =>
      simp only [checkStep, ruleBody, hs, if_false]
      obtain ⟨extra, h1, h2, h3⟩ := ih t l
      exact ⟨extra, h1, List.Sublist.cons _ h2, h3⟩
    | true =>
      simp only [checkStep, ruleBody, hs, if_true]
      by_cases hne : subRule r t = t
      · simp only [hne, ne_eq, not_true_eq_false, if_false, ite_self]
        obtain ⟨extra, h1, h2, h3⟩ := ih t l
        exact ⟨extra, h1, List.Sublist.cons _ h2, h3⟩
      · simp only [ne_eq, hne, not_false_eq_true, if_true]
        obtain ⟨extra, h1, h2, h3⟩ := ih (subRule r t) (l ++ [corrOf r])
        refine ⟨corrOf r :: extra, ?_, ?_, by simp⟩
        · simp [h1]
        · exact List.Sublist.cons₂ _ h2

/-! ## Lemmas for idempotence (C8) -/

theorem eqCI_refl (a : Char) : eqCI a a = true := by simp [eqCI]

theorem eqCI_symm (a b : Char) : eqCI a b = eqCI b a := by
  simp [eqCI, eq_comm]

theorem eqCI_congr_right {p q : Char} (h : eqCI p q = true) (w : Char) :
    eqCI w p = eqCI w q := by
  simp only [eqCI, decide_eq_true_eq] at h
  simp only [eqCI, h]

theorem ciRel_refl (a : Char) : ciRel a a := eqCI_refl a

theorem ciList_refl (u : List Char) : ciList u u := by
  induction u with
  | nil => exact List.Forall₂.nil
  | cons c cs ih => exact List.Forall₂.cons (ciRel_refl c) ih

theorem ciList_append {u₁ v₁ u₂ v₂ : List Char} (h₁ : ciList u₁ v₁)
    (h₂ : ciList u₂ v₂) : ciList (u₁ ++ u₂) (v₁ ++ v₂) := by
  induction h₁ with
  | nil => exact h₂
  | cons h hs ih => exact List.Forall₂.cons h ih

theorem ciList_getD {caps lc : List (List Char)}
    (h : List.Forall₂ ciList caps lc) (i : Nat) :
    ciList (caps.getD i []) (lc.getD i []) := by
  induction h generalizing i with
  | nil => exact List.Forall₂.nil
  | cons hd tl ih =>
    match i with
    | 0 => simpa using hd
    | i + 1 => simpa using ih i

theorem applyTpl_ci {tpl : List Tpl} {caps lc : List (List Char)}
    (h : List.Forall₂ ciList caps lc) :
    ciList (applyTpl tpl caps) (applyTpl tpl lc) := by
  induction tpl with
  | nil => exact List.Forall₂.nil
  | cons t ts ih =>
    match t with
    | .lit w => exact ciList_append (ciList_refl w) ih
    | .ref i => exact ciList_append (ciList_getD h i) ih

theorem matchPieces_lit_nil {ps : List Piece} {s : List Char} :
    matchPieces (.lit [] :: ps) s = matchPieces ps s := rfl

theorem matchPieces_lit_cons_eq {w c : Char} {ws : List Char} {ps : List Piece}
    {x : List Char} (h : eqCI w c = true) :
    matchPieces (.lit (w :: ws) :: ps) (c :: x) =
      matchPieces (.lit ws :: ps) x := by
  simp [matchPieces, matchCI, h]

theorem matchPieces_lit_cons_ne {w c : Char} {ws : List Char} {ps : List Piece}
    {x : List Char} (h : eqCI w c = false) :
    matchPieces (.lit (w :: ws) :: ps) (c :: x) = none := by
  simp [matchPieces, matchCI, h]

theorem matchPieces_bnd {ps : List Piece} {s : List Char} :
    matchPieces (.bnd :: ps) s =
      if boundaryOk s then matchPieces ps s else none := rfl

theorem matchPieces_grp_cons {a : List Char} {alts : List (List Char)}
    {ps : List Piece} {s : List Char} :
    matchPieces (.grp (a :: alts) :: ps) s =
      match matchPieces (.lit a :: ps) s with
      | some (r, caps) => some (r, s.take a.length :: caps)
      | none => matchPieces (.grp alts :: ps) s := by
  show List.findSome? _ (a :: alts) = _
  rw [List.findSome?_cons]
  cases hm : matchCI a s with
  | none => simp [matchPieces, hm]
  | some s' =>
    cases hp : matchPieces ps s' with
    | none => simp [matchPieces, hm, hp]
    | some rc =>
      obtain ⟨r, caps⟩ := rc
      simp [matchPieces, hm, hp]

theorem matchPieces_grp_none_iff {alts : List (List Char)} {ps : List Piece}
    {s : List Char} :
    matchPieces (.grp alts :: ps) s = none ↔
      ∀ a ∈ alts, matchPieces (.lit a :: ps) s = none := by
  induction alts with
  | nil => simp [matchPieces]
  | cons a as ih =>
    rw [matchPieces_grp_cons]
    cases hl : matchPieces (.lit a :: ps) s with
    | none => simp [hl, ih]
    | some rc =>
      obtain ⟨r, caps⟩ := rc
      simp [hl]

/-- Captured texts are case-insensitively equal to the group alternatives
that matched, so every capture list corresponds to one of the finitely
many combinations of alternatives. -/
theorem matchCI_take {a s s' : List Char} (h : matchCI a s = some s') :
    ciList (s.take a.length) a := by
  induction a generalizing s with
  | nil => exact List.Forall₂.nil
  | cons w ws ih =>
    match s with
    | [] => simp [matchCI] at h
    | c :: cs =>
      simp only [matchCI] at h
      cases hw : eqCI w c with
      | false => rw [hw] at h; simp at h
      | true =>
        rw [hw, if_pos rfl] at h
        rw [List.length_cons, List.take_succ_cons]
        exact List.Forall₂.cons (show ciRel c w from (eqCI_symm c w).trans hw) (ih h)

theorem matchPieces_caps {P : List Piece} {s rest : List Char}
    {caps : List (List Char)} (h : matchPieces P s = some (rest, caps)) :
    ∃ lc ∈ capCombos P, List.Forall₂ ciList caps lc := by
  induction P generalizing s rest caps with
  | nil =>
    simp only [matchPieces, Option.some.injEq, Prod.mk.injEq] at h
    exact ⟨[], by simp [capCombos], h.2 ▸ List.Forall₂.nil⟩
  | cons p ps ih =>
    match p with
    | .lit w =>
      simp only [matchPieces] at h
      cases hm : matchCI w s with
      | none => rw [hm] at h; simp at h
      | some s' =>
        rw [hm] at h
        obtain ⟨lc, hmem, hci⟩ := ih h
        exact ⟨lc, by simpa [capCombos] using hmem, hci⟩
    | .bnd =>
      rw [matchPieces_bnd] at h
      split at h
      · obtain ⟨lc, hmem, hci⟩ := ih h
        exact ⟨lc, by simpa [capCombos] using hmem, hci⟩
      · simp at h
    | .grp alts =>
      simp only [matchPieces] at h
      obtain ⟨a, hamem, ha⟩ := List.exists_of_findSome?_eq_some h
      cases hm : matchCI a s with
      | none => simp [hm] at ha
      | some s' =>
        simp only [hm] at ha
        cases hp : matchPieces ps s' with
        | none => simp [hp] at ha
        | some rc =>
          obtain ⟨r, caps'⟩ := rc
          simp only [hp, Option.some.injEq, Prod.mk.injEq] at ha
          obtain ⟨-, hc⟩ := ha
          obtain ⟨lc', hmem', hci'⟩ := ih hp
          refine ⟨a :: lc', ?_, ?_⟩
          · simp only [capCombos, List.mem_flatten]
            exact ⟨(capCombos ps).map (a :: ·), List.mem_map_of_mem _ hamem,
              List.mem_map_of_mem _ hmem'⟩
          · rw [← hc]
            exact List.Forall₂.cons (matchCI_take hm) hci'

/-- A successful match of a pattern whose head consumes (a non-empty
literal, or a group with non-empty alternatives) consumes at least one
character. -/
theorem matchPieces_consumes {P : List Piece} {s rest : List Char}
    {caps : List (List Char)} (hP : headConsumes P = true)
    (h : matchPieces P s = some (rest, caps)) : rest.length < s.length := by
  match P with
  | [] => simp [headConsumes] at hP
  | .bnd :: ps => simp [headConsumes] at hP
  | .lit [] :: ps => simp [headConsumes] at hP
  | .lit (w :: ws) :: ps =>
    simp only [matchPieces] at h
    cases hm : matchCI (w :: ws) s with
    | none => rw [hm] at h; simp at h
    | some s' =>
      rw [hm] at h
      have h1 := matchPieces_rest_length h
      have h2 := matchCI_length hm
      simp only [List.length_cons] at h2
      omega
  | .grp alts :: ps =>
    simp only [headConsumes, List.all_eq_true] at hP
    simp only [matchPieces] at h
    obtain ⟨a, hamem, ha⟩ := List.exists_of_findSome?_eq_some h
    cases hm : matchCI a s with
    | none => simp [hm] at ha
    | some s' =>
      simp only [hm] at ha
      cases hp : matchPieces ps s' with
      | none => simp [hp] at ha
      | some rc =>
        obtain ⟨r, caps'⟩ := rc
        simp only [hp, Option.some.injEq, Prod.mk.injEq] at ha
        obtain ⟨hr, -⟩ := ha
        subst hr
        have h1 := matchPieces_rest_length hp
        have h2 := matchCI_length hm
        have h3 : a.length ≠ 0 := by
          have := hP a hamem
          simpa [List.isEmpty_iff, List.length_eq_zero] using this
        omega

/-- A successful match of a pattern ending in the boundary token leaves a
remainder that starts with a non-word character (or is empty). -/
theorem matchPieces_boundary {P : List Piece} {s rest : List Char}
    {caps : List (List Char)} (hP : endsBnd P = true)
    (h : matchPieces P s = some (rest, caps)) : boundaryOk rest = true := by
  induction P generalizing s rest caps with
  | nil => simp [endsBnd] at hP
  | cons p ps ih =>
    match p, ps with
    | .bnd, [] =>
      rw [matchPieces_bnd] at h
      split at h
      · simp only [matchPieces, Option.some.injEq, Prod.mk.injEq] at h
        obtain ⟨hr, -⟩ := h
        subst hr
        assumption
      · simp at h
    | .bnd, q :: qs =>
      have hP' : endsBnd (q :: qs) = true := hP
      rw [matchPieces_bnd] at h
      split at h
      · exact ih hP' h
      · simp at h
    | .lit w, ps' =>
      have hP' : endsBnd ps' = true := by
        match ps' with
        | [] => simp [endsBnd] at hP
        | q :: qs => exact hP
      simp only [matchPieces] at h
      cases hm : matchCI w s with
      | none => rw [hm] at h; simp at h
      | some s' =>
        rw [hm] at h
        exact ih hP' h
    | .grp alts, ps' =>
      have hP' : endsBnd ps' = true := by
        match ps' with
        | [] => simp [endsBnd] at hP
        | q :: qs => exact hP
      simp only [matchPieces] at h
      obtain ⟨a, hamem, ha⟩ := List.exists_of_findSome?_eq_some h
      cases hm : matchCI a s with
      | none => simp [hm] at ha
      | some s' =>
        simp only [hm] at ha
        cases hp : matchPieces ps' s' with
        | none => simp [hp] at ha
        | some rc =>
          obtain ⟨r, caps'⟩ := rc
          simp only [hp, Option.some.injEq, Prod.mk.injEq] at ha
          obtain ⟨hr, -⟩ := ha
          subst hr
          exact ih hP' hp

/-- Soundness of `litFail`: if the conservative test succeeds on the
case-folded proxy of a prefix, a literal-headed residue fails on the
prefix followed by any continuation starting with a non-word character. -/
theorem litFail_sound {ps : List Piece}
    (hk : ∀ {pre proxy z : List Char}, ciList pre proxy →
      failsOnNW ps proxy = true → boundaryOk z = true →
      matchPieces ps (pre ++ z) = none) :
    ∀ (w : List Char) {pre proxy z : List Char}, ciList pre proxy →
      litFail (fun t => failsOnNW ps t) w proxy = true → boundaryOk z = true →
      matchPieces (.lit w :: ps) (pre ++ z) = none := by
  intro w
  induction w with
  | nil =>
    intro pre proxy z hci hf hz
    rw [matchPieces_lit_nil]
    exact hk hci (by simpa [litFail] using hf) hz
  | cons w0 ws ihw =>
    intro pre proxy z hci hf hz
    cases hci with
    | nil =>
      have hw0 : isWordChar w0 = true := by simpa [litFail] using hf
      match z, hz with
      | [], _ => simp [matchPieces, matchCI]
      | c :: cs, hz =>
        have hc : isWordChar c = false := by
          simpa [boundaryOk] using hz
        exact matchPieces_lit_cons_ne (eqCI_false_of_word_nonword hw0 hc)
    | @cons p q pre' proxy' hpq hci' =>
      cases hwq : eqCI w0 q with
      | false =>
        have hwp : eqCI w0 p = false := (eqCI_congr_right hpq w0).trans hwq
        exact matchPieces_lit_cons_ne hwp
      | true =>
        have hwp : eqCI w0 p = true := (eqCI_congr_right hpq w0).trans hwq
        have hf' : litFail (fun t => failsOnNW ps t) ws proxy' = true := by
          simpa [litFail, hwq] using hf
        rw [List.cons_append, matchPieces_lit_cons_eq hwp]
        exact ihw hci' hf' hz

/-- Soundness of `failsOnNW`: if it succeeds on the case-folded proxy of
a prefix, the residue fails to match the prefix followed by any
continuation starting with a non-word character. -/
theorem failsOnNW_sound :
    ∀ (ρ : List Piece) {pre proxy z : List Char}, ciList pre proxy →
      failsOnNW ρ proxy = true → boundaryOk z = true →
      matchPieces ρ (pre ++ z) = none := by
  intro ρ
  induction ρ with
  | nil =>
    intro pre proxy z _ hf _
    simp [failsOnNW] at hf
  | cons p ps ihp =>
    match p with
    | .bnd =>
      intro pre proxy z hci hf hz
      cases hci with
      | nil => simp [failsOnNW] at hf
      | @cons p q pre' proxy' hpq hci' =>
        have hwc : isWordChar p = isWordChar q := isWordChar_eq_of_eqCI hpq
        cases hq : isWordChar q with
        | true =>
          rw [List.cons_append, matchPieces_bnd]
          have : boundaryOk (p :: (pre' ++ z)) = false := by
            simp [boundaryOk, hwc, hq]
          simp [this]
        | false =>
          have hf' : failsOnNW ps (q :: proxy') = true := by
            simpa [failsOnNW, hq] using hf
          rw [List.cons_append, matchPieces_bnd]
          have hb : boundaryOk (p :: (pre' ++ z)) = true := by
            simp [boundaryOk, hwc, hq]
          rw [hb, if_pos rfl]
          rw [← List.cons_append]
          exact ihp (List.Forall₂.cons hpq hci') hf' hz
    | .lit w =>
      intro pre proxy z hci hf hz
      exact litFail_sound (fun h1 h2 h3 => ihp h1 h2 h3) w hci
        (by simpa [failsOnNW] using hf) hz
    | .grp alts =>
      intro pre proxy z hci hf hz
      rw [matchPieces_grp_none_iff]
      intro a hamem
      have hfa : litFail (fun t => failsOnNW ps t) a proxy = true := by
        simp only [failsOnNW, List.all_eq_true] at hf
        exact hf a hamem
      exact litFail_sound (fun h1 h2 h3 => ihp h1 h2 h3) a hci hfa hz

/-- If the remainder after a match starts with a non-word character (or
is empty), so does its substitution image. -/
theorem boundaryOk_subFrom {P : List Piece} {T : List Tpl} {rest : List Char}
    (h : boundaryOk rest = true) :
    boundaryOk (subFrom P T true rest) = true := by
  match rest with
  | [] => simpa [subFrom_nil] using h
  | c :: cs => rw [subFrom_cons_true]; simpa [boundaryOk] using h

/-- Soundness of `inertScan`: if the scan succeeds on the case-folded
proxy of a replacement, the substitution scanner copies the replacement
unchanged and continues after it in the word-character state. -/
theorem inertScan_sound {P : List Piece} {T : List Tpl} :
    ∀ {Rx proxy : List Char}, ciList Rx proxy →
      ∀ {prev : Bool} {z : List Char}, inertScan P prev proxy = true →
        boundaryOk z = true →
        subFrom P T prev (Rx ++ z) = Rx ++ subFrom P T true z := by
  intro Rx proxy hci
  induction hci with
  | nil =>
    intro prev z hsc _
    have : prev = true := by simpa [inertScan] using hsc
    subst this
    simp
  | @cons p q Rx' proxy' hpq hci' ih =>
    intro prev z hsc hz
    have hand := hsc
    simp only [inertScan, Bool.and_eq_true, Bool.or_eq_true] at hand
    obtain ⟨h1, h2⟩ := hand
    have hwc : isWordChar p = isWordChar q := isWordChar_eq_of_eqCI hpq
    cases hprev : prev with
    | true =>
      rw [List.cons_append, subFrom_cons_true, hwc]
      rw [ih h2 hz]
      simp
    | false =>
      have hfail : failsOnNW P (q :: proxy') = true := by
        rcases h1 with h1 | h1
        · rw [hprev] at h1; simp at h1
        · exact h1
      have hnone : matchPieces P ((p :: Rx') ++ z) = none :=
        failsOnNW_sound P (List.Forall₂.cons hpq hci') hfail hz
      rw [List.cons_append] at hnone ⊢
      rw [subFrom_cons_nomatch hnone, hwc, ih h2 hz]
      simp

theorem sizeRes_pos (p : Piece) : 1 ≤ pieceSize p := by
  match p with
  | .lit w => simp only [pieceSize]; omega
  | .grp alts => simp only [pieceSize]; omega
  | .bnd => simp [pieceSize]

theorem sizeRes_eq_zero {ρ : List Piece} (h : sizeRes ρ = 0) : ρ = [] := by
  match ρ with
  | [] => rfl
  | p :: ps =>
    exfalso
    have := sizeRes_pos p
    simp only [sizeRes, List.map_cons, List.sum_cons] at h
    omega

theorem sizeRes_advance (ρ ρ' : List Piece) (h : ρ' ∈ advanceRes ρ) :
    sizeRes ρ' < sizeRes ρ := by
  match ρ with
  | [] => simp [advanceRes] at h
  | .bnd :: ps =>
    simp only [advanceRes, List.mem_singleton] at h
    subst h
    simp [sizeRes, pieceSize]
  | .lit [] :: ps =>
    simp only [advanceRes, List.mem_singleton] at h
    subst h
    simp [sizeRes, pieceSize]
  | .lit (w :: ws) :: ps =>
    simp only [advanceRes, List.mem_singleton] at h
    subst h
    simp [sizeRes, pieceSize]
  | .grp alts :: ps =>
    simp only [advanceRes, List.mem_map] at h
    obtain ⟨a, hamem, rfl⟩ := h
    have hle : a.length + 1 ≤ (alts.map fun a => a.length + 1).sum :=
      List.single_le_sum (fun x _ => Nat.zero_le x) _
        (List.mem_map_of_mem _ hamem)
    simp only [sizeRes, List.map_cons, List.sum_cons, pieceSize]
    omega

/-- The transfer theorem: a residue of the pattern that fails to match at
a position of the input also fails to match at that position of the
substitution image.  The key fact behind idempotence: substitution never
creates new match positions. -/
theorem transfer (P : List Piece) (T : List Tpl) (RS : List (List Piece))
    (hclos : ∀ ρ ∈ RS, ∀ ρ' ∈ advanceRes ρ, ρ' ∈ RS)
    (hdies : ∀ ρ ∈ RS, ρ ≠ P → ρ ≠ [] →
      ∀ lc ∈ capCombos P, failsOnNW ρ (applyTpl T lc) = true)
    (hcons : headConsumes P = true) (hbnd : endsBnd P = true) :
    ∀ (n : Nat) (ρ : List Piece), sizeRes ρ ≤ n → ρ ∈ RS →
      ∀ (s : List Char) (prev : Bool), matchPieces ρ s = none →
        matchPieces ρ (subFrom P T prev s) = none := by
  intro n
  induction n with
  | zero =>
    intro ρ hsize hmem s prev hnone
    have : ρ = [] := sizeRes_eq_zero (Nat.le_zero.mp hsize)
    subst this
    simp [matchPieces] at hnone
  | succ n ih =>
    intro ρ hsize hmem s prev hnone
    match s with
    | [] => simpa [subFrom_nil] using hnone
    | c :: cs =>
      match ρ, hnone, hsize, hmem with
      | [], hnone, _, _ => simp [matchPieces] at hnone
      | p :: ps, hnone, hsize, hmem =>
        have hcopy :
            subFrom P T prev (c :: cs) = c :: subFrom P T (isWordChar c) cs →
            matchPieces (p :: ps) (subFrom P T prev (c :: cs)) = none := by
          intro hstep
          rw [hstep]
          match p with
          | .bnd =>
            rw [matchPieces_bnd] at hnone ⊢
            by_cases hb : isWordChar c = true
            · have hb2 : boundaryOk (c :: subFrom P T (isWordChar c) cs) = false := by
                simp [boundaryOk, hb]
              simp [hb2]
            · have hbf : isWordChar c = false := by simpa using hb
              have hb1 : boundaryOk (c :: cs) = true := by
                simp [boundaryOk, hbf]
              have hb2 : boundaryOk (c :: subFrom P T (isWordChar c) cs) = true := by
                simp [boundaryOk, hbf]
              rw [hb1, if_pos rfl] at hnone
              rw [hb2, if_pos rfl]
              have hmem' : ps ∈ RS :=
                hclos _ hmem ps (by simp [advanceRes])
              have hsize' : sizeRes ps ≤ n := by
                have := sizeRes_advance (.bnd :: ps) ps (by simp [advanceRes])
                omega
              have := ih ps hsize' hmem' (c :: cs) prev hnone
              rwa [hstep] at this
          | .lit [] =>
            rw [matchPieces_lit_nil] at hnone ⊢
            have hmem' : ps ∈ RS :=
              hclos _ hmem ps (by simp [advanceRes])
            have hsize' : sizeRes ps ≤ n := by
              have := sizeRes_advance (.lit [] :: ps) ps (by simp [advanceRes])
              omega
            have := ih ps hsize' hmem' (c :: cs) prev hnone
            rwa [hstep] at this
          | .lit (w :: ws) =>
            cases hwc : eqCI w c with
            | false => exact matchPieces_lit_cons_ne hwc
            | true =>
              rw [matchPieces_lit_cons_eq hwc] at hnone ⊢
              have hmem' : (Piece.lit ws :: ps) ∈ RS :=
                hclos _ hmem _ (by simp [advanceRes])
              have hsize' : sizeRes (Piece.lit ws :: ps) ≤ n := by
                have := sizeRes_advance (.lit (w :: ws) :: ps) (.lit ws :: ps)
                  (by simp [advanceRes])
                omega
              exact ih _ hsize' hmem' cs (isWordChar c) hnone
          | .grp alts =>
            rw [matchPieces_grp_none_iff] at hnone ⊢
            intro a hamem
            have hnone' := hnone a hamem
            have hmem' : (Piece.lit a :: ps) ∈ RS :=
              hclos _ hmem _ (by
                simp only [advanceRes, List.mem_map]
                exact ⟨a, hamem, rfl⟩)
            have hsize' : sizeRes (Piece.lit a :: ps) ≤ n := by
              have := sizeRes_advance (.grp alts :: ps) (.lit a :: ps) (by
                simp only [advanceRes, List.mem_map]
                exact ⟨a, hamem, rfl⟩)
              omega
            have := ih _ hsize' hmem' (c :: cs) prev hnone'
            rwa [hstep] at this
        by_cases hprev : prev = true
        · exact hcopy (by rw [hprev]; exact subFrom_cons_true)
        · have hprevf : prev = false := by simpa using hprev
          cases hP : matchPieces P (c :: cs) with
          | none => exact hcopy (by rw [hprevf]; exact subFrom_cons_nomatch hP)
          | some rc =>
            obtain ⟨rest, caps⟩ := rc
            have hlen : rest.length < cs.length + 1 := by
              have := matchPieces_consumes hcons hP
              simpa using this
            rw [hprevf, subFrom_cons_match hP hlen]
            have hz : boundaryOk (subFrom P T true rest) = true :=
              boundaryOk_subFrom (matchPieces_boundary hbnd hP)
            by_cases hρP : p :: ps = P
            · rw [hρP] at hnone
              rw [hnone] at hP
              exact absurd hP (by simp)
            · obtain ⟨lc, hlcmem, hlcci⟩ := matchPieces_caps hP
              have hfail := hdies _ hmem hρP (by simp) lc hlcmem
              exact failsOnNW_sound _ (applyTpl_ci hlcci) hfail hz

/-- Idempotence of substitution: under the residue side conditions
(closure, certain failure of proper residues on every replacement, an
inert replacement scan, consumption, and the final boundary), the
substitution image of any string is a fixed point of the substitution. -/
theorem subFrom_idem (P : List Piece) (T : List Tpl) (RS : List (List Piece))
    (hclos : ∀ ρ ∈ RS, ∀ ρ' ∈ advanceRes ρ, ρ' ∈ RS)
    (hdies : ∀ ρ ∈ RS, ρ ≠ P → ρ ≠ [] →
      ∀ lc ∈ capCombos P, failsOnNW ρ (applyTpl T lc) = true)
    (hcons : headConsumes P = true) (hbnd : endsBnd P = true)
    (hPmem : P ∈ RS)
    (hscan : ∀ lc ∈ capCombos P, inertScan P false (applyTpl T lc) = true) :
    ∀ (n : Nat) (s : List Char) (prev : Bool), s.length ≤ n →
      subFrom P T prev (subFrom P T prev s) = subFrom P T prev s := by
  intro n
  induction n with
  | zero =>
    intro s prev h
    have hs : s = [] := List.length_eq_zero.mp (Nat.le_zero.mp h)
    subst hs
    simp [subFrom_nil]
  | succ n ih =>
    intro s prev hs
    match s with
    | [] => simp [subFrom_nil]
    | c :: cs =>
      have hlen_cs : cs.length ≤ n := by
        simp only [List.length_cons] at hs
        omega
      by_cases hprev : prev = true
      · rw [hprev, subFrom_cons_true, subFrom_cons_true]
        rw [ih cs (isWordChar c) hlen_cs]
      · have hpf : prev = false := by simpa using hprev
        rw [hpf]
        cases hP : matchPieces P (c :: cs) with
        | none =>
          have htr := transfer P T RS hclos hdies hcons hbnd (sizeRes P) P
            (Nat.le_refl _) hPmem (c :: cs) false hP
          rw [subFrom_cons_nomatch hP] at htr ⊢
          rw [subFrom_cons_nomatch htr, ih cs (isWordChar c) hlen_cs]
        | some rc =>
          obtain ⟨rest, caps⟩ := rc
          have hlen : rest.length < cs.length + 1 := by
            simpa using matchPieces_consumes hcons hP
          rw [subFrom_cons_match hP hlen]
          obtain ⟨lc, hlcmem, hlcci⟩ := matchPieces_caps hP
          have hz : boundaryOk (subFrom P T true rest) = true :=
            boundaryOk_subFrom (matchPieces_boundary hbnd hP)
          rw [inertScan_sound (P := P) (T := T) (applyTpl_ci hlcci)
            (hscan lc hlcmem) hz]
          rw [ih rest true (by omega)]

/-- Idempotence of `subRule` for rule 1 (instantiating the side
conditions by computation on its residue set). -/
theorem rule1_subRule_idem (t : String) :
    subRule rule1 (subRule rule1 t) = subRule rule1 t :=
  congrArg String.mk
    (subFrom_idem rule1.pattern rule1.correction (residues rule1.pattern)
      (by decide) (by decide) (by decide) (by decide) (by decide) (by decide)
      t.data.length t.data false (Nat.le_refl _))

/-- Idempotence of `subRule` for rule 2. -/
theorem rule2_subRule_idem (t : String) :
    subRule rule2 (subRule rule2 t) = subRule rule2 t :=
  congrArg String.mk
    (subFrom_idem rule2.pattern rule2.correction (residues rule2.pattern)
      (by decide) (by decide) (by decide) (by decide) (by decide) (by decide)
      t.data.length t.data false (Nat.le_refl _))

/-- Idempotence of `subRule` for rule 3. -/
theorem rule3_subRule_idem (t : String) :
    subRule rule3 (subRule rule3 t) = subRule rule3 t :=
  congrArg String.mk
    (subFrom_idem rule3.pattern rule3.correction (residues rule3.pattern)
      (by decide) (by decide) (by decide) (by decide) (by decide) (by decide)
      t.data.length t.data false (Nat.le_refl _))

/-- Idempotence of `subRule` for rule 4. -/
theorem rule4_subRule_idem (t : String) :
    subRule rule4 (subRule rule4 t) = subRule rule4 t :=
  congrArg String.mk
    (subFrom_idem rule4.pattern rule4.correction (residues rule4.pattern)
      (by decide) (by decide) (by decide) (by decide) (by decide) (by decide)
      t.data.length t.data false (Nat.le_refl _))

/-- Idempotence of `subRule` for rule 5. -/
theorem rule5_subRule_idem (t : String) :
    subRule rule5 (subRule rule5 t) = subRule rule5 t :=
  congrArg String.mk
    (subFrom_idem rule5.pattern rule5.correction (residues rule5.pattern)
      (by decide) (by decide) (by decide) (by decide) (by decide) (by decide)
      t.data.length t.data false (Nat.le_refl _))

/-- The corrected text of a single-rule check. -/
theorem checkRule_first (r : Rule) (t : String) :
    (checkRule r t).1 =
      if searchRule r t then
        (if subRule r t = t then t else subRule r t)
      else t := by
  cases hs : searchRule r t with
  | false =>
    have hb : ruleBody r t = .ok none := by simp [ruleBody, hs]
    simp [checkRule, checkGrammarWith, checkStep, hb]
  | true =>
    have hb : ruleBody r t = .ok (some (subRule r t)) := by simp [ruleBody, hs]
    by_cases hne : subRule r t = t
    · simp [checkRule, checkGrammarWith, checkStep, hb, hne]
    · simp [checkRule, checkGrammarWith, checkStep, hb, hne]

/-- A rule whose substitution is idempotent gives an idempotent
single-rule check. -/
theorem checkRule_idem_of_sub (r : Rule)
    (hsub : ∀ t, subRule r (subRule r t) = subRule r t) (t : String) :
    (checkRule r ((checkRule r t).1)).1 = (checkRule r t).1 := by
  have key : subRule r ((checkRule r t).1) = (checkRule r t).1 ∨
      searchRule r ((checkRule r t).1) = false := by
    rw [checkRule_first r t]
    cases hs : searchRule r t with
    | false => simp [hs]
    | true =>
      simp only [if_pos rfl]
      by_cases hne : subRule r t = t
      · left; rw [if_pos hne]; exact hne
      · left; rw [if_neg hne]; exact hsub t
  rw [checkRule_first r ((checkRule r t).1)]
  rcases key with hk | hk
  · cases hs2 : searchRule r ((checkRule r t).1) with
    | false => simp
    | true => simp [hk]
  · simp [hk]

theorem minAlts_le {alts : List (List Char)} {a : List Char} (h : a ∈ alts) :
    minAlts alts ≤ a.length := by
  induction alts with
  | nil => simp at h
  | cons b bs ih =>
    match bs with
    | [] =>
      simp only [List.mem_singleton] at h
      subst h
      simp [minAlts]
    | c :: cs =>
      rcases List.mem_cons.mp h with h | h
      · subst h
        simp only [minAlts]
        exact Nat.min_le_left _ _
      · simp only [minAlts]
        exact Nat.le_trans (Nat.min_le_right _ _) (ih h)

/-- Every successful match consumes at least `minConsume P` characters. -/
theorem matchPieces_minConsume {P : List Piece} {s rest : List Char}
    {caps : List (List Char)} (h : matchPieces P s = some (rest, caps)) :
    rest.length + minConsume P ≤ s.length := by
  induction P generalizing s rest caps with
  | nil =>
    simp only [matchPieces, Option.some.injEq, Prod.mk.injEq] at h
    simp [h.1, minConsume]
  | cons p ps ih =>
    match p with
    | .lit w =>
      simp only [matchPieces] at h
      cases hm : matchCI w s with
      | none => rw [hm] at h; simp at h
      | some s' =>
        rw [hm] at h
        have h1 := ih h
        have h2 := matchCI_length hm
        simp only [minConsume]
        omega
    | .bnd =>
      rw [matchPieces_bnd] at h
      split at h
      · have := ih h
        simpa [minConsume] using this
      · simp at h
    | .grp alts =>
      simp only [matchPieces] at h
      obtain ⟨a, hamem, ha⟩ := List.exists_of_findSome?_eq_some h
      cases hm : matchCI a s with
      | none => simp [hm] at ha
      | some s' =>
        simp only [hm] at ha
        cases hp : matchPieces ps s' with
        | none => simp [hp] at ha
        | some rc =>
          obtain ⟨r, caps'⟩ := rc
          simp only [hp, Option.some.injEq, Prod.mk.injEq] at ha
          obtain ⟨hr, -⟩ := ha
          subst hr
          have h1 := ih hp
          have h2 := matchCI_length hm
          have h3 := minAlts_le hamem
          simp only [minConsume]
          omega

/-- If every replacement is strictly shorter than the text it replaces,
substitution never lengthens the text and strictly shortens it whenever
the pattern is found. -/
theorem subFrom_length_lt (P : List Piece) (T : List Tpl)
    (hshort : ∀ {s rest : List Char} {caps : List (List Char)},
      matchPieces P s = some (rest, caps) →
      (applyTpl T caps).length + rest.length < s.length) :
    ∀ (n : Nat) (l : List Char) (prev : Bool), l.length ≤ n →
      (subFrom P T prev l).length ≤ l.length ∧
      (searchFrom P prev l = true → (subFrom P T prev l).length < l.length) := by
  intro n
  induction n with
  | zero =>
    intro l prev h
    have hl : l = [] := List.length_eq_zero.mp (Nat.le_zero.mp h)
    subst hl
    exact ⟨by simp [subFrom_nil], fun hs => by simp [searchFrom] at hs⟩
  | succ n ih =>
    intro l prev hl
    match l with
    | [] => exact ⟨by simp [subFrom_nil], fun hs => by simp [searchFrom] at hs⟩
    | c :: cs =>
      have hcs : cs.length ≤ n := by
        simp only [List.length_cons] at hl
        omega
      by_cases hprev : prev = true
      · subst hprev
        rw [subFrom_cons_true]
        have hih := ih cs (isWordChar c) hcs
        refine ⟨by simpa using hih.1, fun hs => ?_⟩
        have hs' : searchFrom P (isWordChar c) cs = true := by
          simpa [searchFrom] using hs
        have := hih.2 hs'
        simp only [List.length_cons]
        omega
      · have hpf : prev = false := by simpa using hprev
        subst hpf
        cases hP : matchPieces P (c :: cs) with
        | none =>
          rw [subFrom_cons_nomatch hP]
          have hih := ih cs (isWordChar c) hcs
          refine ⟨by simpa using hih.1, fun hs => ?_⟩
          have hs' : searchFrom P (isWordChar c) cs = true := by
            simpa [searchFrom, hP] using hs
          have := hih.2 hs'
          simp only [List.length_cons]
          omega
        | some rc =>
          obtain ⟨rest, caps⟩ := rc
          have hsh := hshort hP
          simp only [List.length_cons] at hsh
          have hlen : rest.length < cs.length + 1 := by omega
          rw [subFrom_cons_match hP hlen]
          have hih := (ih rest true (by omega)).1
          have hstrict :
              (applyTpl T caps ++ subFrom P T true rest).length <
                (c :: cs).length := by
            simp only [List.length_append, List.length_cons]
            omega
          exact ⟨Nat.le_of_lt hstrict, fun _ => hstrict⟩

/-- Rule 1's replacement resolves to the four-character literal `I go`
for every capture list. -/
theorem rule1_applyTpl_length (caps : List (List Char)) :
    (applyTpl rule1.correction caps).length = 4 := rfl

/-- Every match of rule 1's pattern consumes at least six characters and
is replaced by the four-character literal, so it is replaced by strictly
shorter text. -/
theorem rule1_short {s rest : List Char} {caps : List (List Char)}
    (h : matchPieces rule1.pattern s = some (rest, caps)) :
    (applyTpl rule1.correction caps).length + rest.length < s.length := by
  have h1 := matchPieces_minConsume h
  have h2 : minConsume rule1.pattern = 6 := by decide
  rw [rule1_applyTpl_length]
  omega

/-- Whenever rule 1's pattern is found, the substitution strictly
shortens the text, so the corrected text differs from the input. -/
theorem rule1_sub_ne (t : String) (hs : searchRule rule1 t = true) :
    subRule rule1 t ≠ t := by
  intro heq
  have hlt :=
    (subFrom_length_lt rule1.pattern rule1.correction rule1_short
      t.data.length t.data false (Nat.le_refl _)).2 hs
  have hdata : subFrom rule1.pattern rule1.correction false t.data = t.data :=
    congrArg String.data heq
  rw [hdata] at hlt
  omega

/-! ## Claims -/

/-- C1: `check_grammar` applies the rules strictly in table order to the
progressively corrected text: the corrected text equals the sequential
fold of the per-rule substitutions, and on `"do he go"` rules 2 and 5
both fire in sequence, so the result `"does he gos"` differs from the
independent application of either rule to the original input
(`"do he gos"` for rule 2 alone, `"does he go"` for rule 5 alone). -/
theorem C1_sequential_table_order :
    (∀ t : String,
      (check_grammar t).1 =
        List.foldl (fun cur r => applyRuleText r cur) t GRAMMAR_RULES)
    ∧ check_grammar "do he go" = ("does he gos", [corrOf rule2, corrOf rule5])
    ∧ subRule rule2 "do he go" = "do he gos"
    ∧ subRule rule5 "do he go" = "does he go"
    ∧ ("does he gos" : String) ≠ "do he gos"
    ∧ ("does he gos" : String) ≠ "does he go" :=
  ⟨fun t => foldl_text_component GRAMMAR_RULES t [],
    by decide, by decide, by decide, by decide, by decide⟩

/-- C2 counterexample: the first rule's replacement is the fixed literal
`'I go'`, so `"I eats pizza"` is rewritten to `"I go pizza"`, not to
`"I eat pizza"` as the claim states. -/
theorem C2_counterexample :
    (check_grammar "I eats pizza").1 = "I go pizza" ∧
    (check_grammar "I eats pizza").1 ≠ "I eat pizza" := by
  constructor <;> decide

/-- C2 (amended): the first rule's replacement template is the fixed
literal `I go`, independent of the matched verb; for every input in
which the rule's pattern (`I` followed by a verb of the closed set) is
found, the substitution replaces each matched phrase with that literal —
strictly shortening the text, so the text genuinely changes — and the
rule records exactly one correction with category
`"Subject-Verb Agreement"`; in particular each bare phrase `"I " ++ verb`
becomes `"I go"` (so `"I eats"` becomes `"I go"`, not `"I eat"`). -/
theorem C2_amended_fixed_replacement :
    rule1.correction = [Tpl.lit "I go".data]
    ∧ (∀ t : String, searchRule rule1 t = true →
        subRule rule1 t ≠ t ∧
        checkRule rule1 t = (subRule rule1 t, [corrOf rule1]))
    ∧ (corrOf rule1).category = "Subject-Verb Agreement"
    ∧ check_grammar "I goes to school" = ("I go to school", [corrOf rule1])
    ∧ check_grammar "I goes" = ("I go", [corrOf rule1])
    ∧ check_grammar "I eats" = ("I go", [corrOf rule1])
    ∧ check_grammar "I plays" = ("I go", [corrOf rule1])
    ∧ check_grammar "I reads" = ("I go", [corrOf rule1])
    ∧ check_grammar "I writes" = ("I go", [corrOf rule1]) := by
  refine ⟨rfl, ?_, by decide, by decide, by decide, by decide, by decide,
    by decide, by decide⟩
  intro t hs
  have hne := rule1_sub_ne t hs
  have hb : ruleBody rule1 t = .ok (some (subRule rule1 t)) := by
    simp [ruleBody, hs]
  exact ⟨hne, by simp [checkRule, checkGrammarWith, checkStep, hb, hne]⟩

/-- Witness for the amended C2 at a concrete input where the pattern is
found: on `"I eats pizza"` the single-rule check changes the text and
records exactly the rule-1 correction. -/
theorem C2_amended_fixed_replacement_witness :
    subRule rule1 "I eats pizza" ≠ "I eats pizza" ∧
    checkRule rule1 "I eats pizza" =
      (subRule rule1 "I eats pizza", [corrOf rule1]) :=
  C2_amended_fixed_replacement.2.1 "I eats pizza" (by decide)

/-- C3: on `"Do she like music?"` the code returns exactly one
correction with category `"Auxiliary Verbs"`, but the corrected text is
`"does she like music?"` with a lowercase `does` — the replacement
template is the literal lowercase `does \1` — contradicting the rule's
own examples field, which documents `"✅ Does she like music?"`. -/
theorem C3_lowercase_does :
    check_grammar "Do she like music?" = ("does she like music?", [corrOf rule5])
    ∧ (check_grammar "Do she like music?").1 ≠ "Does she like music?"
    ∧ (corrOf rule5).category = "Auxiliary Verbs"
    ∧ rule5.examples = ["❌ Do she like music?", "✅ Does she like music?"] := by
  refine ⟨?_, ?_, ?_, ?_⟩ <;> decide

/-- C4 counterexample: rule 2's replacement appends a literal `s` to the
captured verb, so `"he go home"` is corrected to `"he gos home"`, not to
`"he goes home"` as the claim states. -/
theorem C4_counterexample :
    (check_grammar "he go home").1 = "he gos home" ∧
    (check_grammar "he go home").1 ≠ "he goes home" := by
  constructor <;> decide

/-- C4 (amended): correcting `"he go home"` yields `"he gos home"` and
`"He go home"` yields `"He gos home"`: the captured pronoun is
reinjected verbatim, preserving its original capitalization, and the
captured verb is reinjected with a literal `s` appended. -/
theorem C4_amended_case_preserved :
    check_grammar "he go home" = ("he gos home", [corrOf rule2])
    ∧ check_grammar "He go home" = ("He gos home", [corrOf rule2])
    ∧ check_grammar "HE GO home" = ("HE GOs home", [corrOf rule2]) := by
  refine ⟨?_, ?_, ?_⟩ <;> decide

/-- C5: if no rule's pattern is found in `t`, then
`check_grammar t = (t, [])`; in particular this holds for the empty
string and for every whitespace-only string. -/
theorem C5_no_match_identity :
    (∀ t : String, (∀ r ∈ GRAMMAR_RULES, searchRule r t = false) →
      check_grammar t = (t, []))
    ∧ check_grammar "" = ("", [])
    ∧ (∀ t : String, (∀ c ∈ t.data, c.isWhitespace = true) →
      check_grammar t = (t, [])) := by
  have hstart : ∀ r ∈ GRAMMAR_RULES, patStartsWord r.pattern = true := by decide
  refine ⟨?_, by decide, ?_⟩
  · intro t h
    exact foldl_no_match h []
  · intro t h
    refine foldl_no_match (fun r hr => ?_) []
    exact searchFrom_nonword (hstart r hr) t.data false
      (fun c hc => nonword_of_whitespace (h c hc))

/-- Witness for C5 at concrete inputs: a whitespace-only string and a
sentence containing none of the trigger patterns are returned unchanged
with no corrections. -/
theorem C5_no_match_identity_witness :
    check_grammar "   " = ("   ", []) ∧
    check_grammar "hello world." = ("hello world.", []) :=
  ⟨C5_no_match_identity.2.2 "   " (by decide),
    C5_no_match_identity.1 "hello world." (by decide)⟩

/-- C6: for every rule and input, if the rule's pattern is found but the
substitution returns a string identical to the current text, the loop
body leaves both the text and the corrections list unchanged. -/
theorem C6_no_op_match_not_recorded (r : Rule) (t : String) (l : List Correction)
    (hs : searchRule r t = true) (hsub : subRule r t = t) :
    checkStep ruleBody (t, l) r = (t, l) := by
  simp [checkStep, ruleBody, hs, hsub]

/-- Witness for C6: the pattern `\bok\b` with replacement `ok` matches
`"ok"` but substitutes identically, and the loop body records nothing. -/
theorem C6_no_op_match_not_recorded_witness :
    searchRule ruleNoOp "ok" = true ∧ subRule ruleNoOp "ok" = "ok" ∧
    checkStep ruleBody ("ok", []) ruleNoOp = ("ok", []) :=
  ⟨by decide, by decide,
    C6_no_op_match_not_recorded ruleNoOp "ok" [] (by decide) (by decide)⟩

/-- C7: if the body of the per-rule `try` block throws for some rule,
that rule is skipped without modifying the current text or the
corrections list, and the pipeline continues with the remaining rules;
the loop always returns a well-formed pair. -/
theorem C7_error_skips_rule_only
    (body : Rule → String → Except String (Option String))
    (acc : String × List Correction) (r : Rule) (rs : List Rule) (e : String)
    (h : body r acc.1 = .error e) :
    checkStep body acc r = acc ∧
    List.foldl (checkStep body) acc (r :: rs) =
      List.foldl (checkStep body) acc rs := by
  have hstep : checkStep body acc r = acc := by simp [checkStep, h]
  exact ⟨hstep, by simp [List.foldl_cons, hstep]⟩

/-- Witness for C7: a body that always throws leaves the state unchanged
and the pipeline moves on to the next rule. -/
theorem C7_error_skips_rule_only_witness :
    checkStep failingBody ("x", []) rule1 = ("x", []) ∧
    List.foldl (checkStep failingBody) ("x", []) [rule1, rule2] =
      List.foldl (checkStep failingBody) ("x", []) [rule2] :=
  C7_error_skips_rule_only failingBody ("x", []) rule1 [rule2] "boom" rfl

/-- C9: the checker is pure and deterministic: a method call returns the
instance unchanged (the method body never assigns to `self.rules` or any
other attribute), a repeated call on the resulting state with the same
input returns an identical result, and the result is a function of the
static rule table and the input text only. -/
theorem C9_pure_stateless_deterministic :
    (∀ (self : GrammarChecker) (t : String), (self.checkCall t).2 = self)
    ∧ (∀ (self : GrammarChecker) (t : String),
        (((self.checkCall t).2).checkCall t).1 = (self.checkCall t).1)
    ∧ (∀ t : String, (GrammarChecker.init.checkCall t).1 = check_grammar t) :=
  ⟨fun _ _ => rfl, fun _ _ => rfl, fun _ => rfl⟩

/-- C8: for each of the five rules of `GRAMMAR_RULES` taken in isolation
and every input `t`, checking is idempotent: re-checking the corrected
text returns it unchanged, i.e. a sentence already corrected by a rule
does not re-trigger that same rule. -/
theorem C8_idempotent_each_rule (t : String) :
    (checkRule rule1 ((checkRule rule1 t).1)).1 = (checkRule rule1 t).1 ∧
    (checkRule rule2 ((checkRule rule2 t).1)).1 = (checkRule rule2 t).1 ∧
    (checkRule rule3 ((checkRule rule3 t).1)).1 = (checkRule rule3 t).1 ∧
    (checkRule rule4 ((checkRule rule4 t).1)).1 = (checkRule rule4 t).1 ∧
    (checkRule rule5 ((checkRule rule5 t).1)).1 = (checkRule rule5 t).1 :=
  ⟨checkRule_idem_of_sub rule1 rule1_subRule_idem t,
    checkRule_idem_of_sub rule2 rule2_subRule_idem t,
    checkRule_idem_of_sub rule3 rule3_subRule_idem t,
    checkRule_idem_of_sub rule4 rule4_subRule_idem t,
    checkRule_idem_of_sub rule5 rule5_subRule_idem t⟩

/-- C10: if the corrected text differs from the input, the corrections
list is non-empty; the corrections list is a sublist of the per-rule
records in table order (so each rule contributes at most one correction,
in order), and hence has at most `5 = GRAMMAR_RULES.length` entries. -/
theorem C10_corrections_invariants (t : String) :
    ((check_grammar t).1 ≠ t → (check_grammar t).2 ≠ [])
    ∧ List.Sublist (check_grammar t).2 (GRAMMAR_RULES.map corrOf)
    ∧ (check_grammar t).2.length ≤ 5 := by
  obtain ⟨extra, h1, h2, h3⟩ := foldl_corrections_sublist GRAMMAR_RULES t []
  have h2' : List.Sublist (check_grammar t).2 (GRAMMAR_RULES.map corrOf) := by
    rw [show (check_grammar t).2 = extra by simpa using h1]
    exact h2
  refine ⟨fun hne => ?_, h2', ?_⟩
  · rw [show (check_grammar t).2 = extra by simpa using h1]
    exact h3 hne
  · have := h2'.length_le
    simpa using this

/-- Witness for C10: on `"I goes"` the text changes and the corrections
list is indeed non-empty. -/
theorem C10_corrections_invariants_witness :
    (check_grammar "I goes").1 ≠ "I goes" ∧ (check_grammar "I goes").2 ≠ [] :=
  ⟨by decide, (C10_corrections_invariants "I goes").1 (by decide)⟩

end GrammarBot
